import Mathlib

/-
Verification of the habit_tracker repository.

The development shallowly embeds the core of the program:
* `src/habit.rs` — the `Habit` entity, its mutations and the
  frequency-aware streak / completion engine;
* `src/ui.rs`    — the list projection (`update_list_items`) and the
  navigation state machine (`next`, `previous`);
* `src/main.rs`  — the Enter (toggle) and 'd' (delete) handlers of the
  event loop.

Dates (`chrono::NaiveDate`) are embedded as integers counting days since
1970-01-01 in the proleptic Gregorian calendar.  The calendar-dependent
observations the code uses — year, month, day-of-month, ISO-week
equality — are computed from the day number with the standard civil
calendar algorithm, matching chrono's calendar.  `chrono`'s
`NaiveDate::MIN` / `NaiveDate::MAX` (years -262144 and 262143 in
chrono 0.4) bound the representable range: `pred_opt` fails exactly at
the minimum and `succ_opt` exactly at the maximum, which the source
handles with `unwrap_or(current_date)`.

The streak loop and the completion-status loop of the source are `while`
loops whose termination is part of what is being verified, so they are
embedded with an explicit fuel parameter: `none` means the fuel ran out.
A run of the Rust loop returning a value is expressed by the relation
"some fuel suffices"; divergence is "no fuel suffices".  The Weekly and
Monthly streak steps subtract a `chrono::Duration` from a `NaiveDate`,
an operation that panics when the result falls below `NaiveDate::MIN`;
that panic is modelled explicitly (`subDays` returning `none`, the loop
ending in `LoopRes.panic`), distinct from both normal return and
divergence.
-/

namespace HabitTracker

/-! ### Calendar arithmetic

`daysFromCivil` and the `...Of` projections implement the standard
civil-from-days / days-from-civil conversions for the proleptic
Gregorian calendar (the calendar chrono implements), on day numbers
with epoch 1970-01-01. -/

def daysFromCivil (y : Int) (m d : Nat) : Int :=
  let yAdj : Int := if m ≤ 2 then y - 1 else y
  let era : Int := Int.ediv yAdj 400
  let yoe : Nat := (yAdj - era * 400).toNat
  let doy : Nat := (153 * (if 2 < m then m - 3 else m + 9) + 2) / 5 + d - 1
  let doe : Nat := yoe * 365 + yoe / 4 - yoe / 100 + doy
  era * 146097 + (doe : Int) - 719468

def doeOf (z : Int) : Nat :=
  (Int.emod (z + 719468) 146097).toNat

def eraOf (z : Int) : Int :=
  Int.ediv (z + 719468) 146097

def yoeOf (z : Int) : Nat :=
  (doeOf z - doeOf z / 1460 + doeOf z / 36524 - doeOf z / 146096) / 365

def doyOf (z : Int) : Nat :=
  doeOf z - (365 * yoeOf z + yoeOf z / 4 - yoeOf z / 100)

def mpOf (z : Int) : Nat :=
  (5 * doyOf z + 2) / 153

/-- Day of month, in 1..31. -/
def domOf (z : Int) : Nat :=
  doyOf z - (153 * mpOf z + 2) / 5 + 1

/-- Calendar month, in 1..12 (model of `NaiveDate::month`). -/
def monthOf (z : Int) : Nat :=
  if mpOf z < 10 then mpOf z + 3 else mpOf z - 9

/-- Calendar year (model of `NaiveDate::year`). -/
def yearOf (z : Int) : Int :=
  let y : Int := eraOf z * 400 + (yoeOf z : Int)
  if monthOf z ≤ 2 then y + 1 else y

/-- ISO 8601 weeks partition the days into Monday-started blocks of 7;
two dates have equal `iso_week()` (same ISO year and week number) iff
they lie in the same block.  Day 0 (1970-01-01) is a Thursday, so its
block starts at day -3. -/
def isoWeekIdx (z : Int) : Int :=
  Int.ediv (z + 3) 7

/-- `NaiveDate::MIN` of chrono 0.4: January 1 of year -262144. -/
def dateMIN : Int := daysFromCivil (-262144) 1 1

/-- `NaiveDate::MAX` of chrono 0.4: December 31 of year 262143. -/
def dateMAX : Int := daysFromCivil 262143 12 31

/-- `current_date.pred_opt().unwrap_or(current_date)`: the previous day,
except that at `NaiveDate::MIN` the date is returned unchanged. -/
def predClamp (z : Int) : Int :=
  if z = dateMIN then z else z - 1

/-- `current_date.succ_opt().unwrap_or(current_date)`: the next day,
except that at `NaiveDate::MAX` the date is returned unchanged. -/
def succClamp (z : Int) : Int :=
  if z = dateMAX then z else z + 1

/-- `current_date.with_day(1)`: the first day of the month of `z`,
which is `domOf z - 1` days earlier (`with_day(1)` never fails, so the
`unwrap_or` in the source is inert). -/
def withDay1 (z : Int) : Int :=
  z - ((domOf z : Int) - 1)

/-- `NaiveDate - Duration` for a non-negative number of days: chrono
panics (here `none`) when the result falls out of range, and
subtracting a non-negative duration can only cross the lower bound. -/
def subDays (z amount : Int) : Option Int :=
  if z - amount < dateMIN then none else some (z - amount)

/-! ### The Habit entity (`src/habit.rs`) -/

inductive Frequency where
  | Daily
  | Weekly
  | Monthly
deriving DecidableEq, Repr

structure Habit where
  name : String
  category : String
  frequency : Frequency
  completed_dates : List Int
deriving DecidableEq, Repr

def Habit.new (name category : String) (frequency : Frequency) : Habit :=
  { name := name, category := category, frequency := frequency,
    completed_dates := [] }

/-- `Vec::sort_unstable` on dates: sorting ascending (on a totally
ordered element type an unstable sort is extensionally a sort). -/
def sortDates (l : List Int) : List Int :=
  l.insertionSort (· ≤ ·)

def Habit.mark_completed (h : Habit) (date : Int) : Habit :=
  if h.completed_dates.contains date then h
  else { h with completed_dates := sortDates (h.completed_dates ++ [date]) }

def Habit.unmark_completed (h : Habit) (date : Int) : Habit :=
  { h with completed_dates := h.completed_dates.filter (fun d => decide (d ≠ date)) }

def Habit.is_completed (h : Habit) (date : Int) : Bool :=
  h.completed_dates.contains date

/-- `self.completed_dates.iter().rev().find(|&&d| d <= current)`. -/
def lastLE (dates : List Int) (current : Int) : Option Int :=
  dates.reverse.find? (fun d => decide (d ≤ current))

/-- Outcome of a run of the streak loop that ends: a normal return of
the streak count, or a chrono date-arithmetic panic. -/
inductive LoopRes where
  | ok (n : Nat)
  | panic
deriving DecidableEq, Repr

/-- The body of the `while let` loop of `Habit::get_streak`, with fuel.
`none` means the fuel was exhausted before the loop ended; a run ends
either normally (`LoopRes.ok`) or by the panic of
`current_date - chrono::Duration::weeks(1)` /
`.. - chrono::Duration::days(1)` below `NaiveDate::MIN`
(`LoopRes.panic`). -/
def streakGo (freq : Frequency) (dates : List Int) :
    Nat → Int → Nat → Option LoopRes
  | 0, _, _ => none
  | fuel + 1, current, streak =>
    match lastLE dates current with
    | none => some (.ok streak)
    | some last =>
      match freq with
      | .Daily =>
        if last = current then
          streakGo freq dates fuel (predClamp current) (streak + 1)
        else some (.ok streak)
      | .Weekly =>
        if isoWeekIdx last = isoWeekIdx current then
          match subDays current 7 with
          | none => some .panic
          | some next => streakGo freq dates fuel next (streak + 1)
        else some (.ok streak)
      | .Monthly =>
        if yearOf last = yearOf current ∧ monthOf last = monthOf current then
          match subDays (withDay1 current) 1 with
          | none => some .panic
          | some next => streakGo freq dates fuel next (streak + 1)
        else some (.ok streak)

/-- `h.get_streak(end_date)` returns `n` — i.e. the Rust loop ends
normally with result `n` (some amount of fuel suffices). -/
def StreakResult (freq : Frequency) (dates : List Int) (endDate : Int)
    (n : Nat) : Prop :=
  ∃ fuel, streakGo freq dates fuel endDate 0 = some (.ok n)

def Habit.streakResult (h : Habit) (endDate : Int) (n : Nat) : Prop :=
  StreakResult h.frequency h.completed_dates endDate n

/-- The body of the `while` loop of `Habit::get_completion_status`,
with fuel. -/
def completionGo (dates : List Int) :
    Nat → Int → Int → List Bool → Option (List Bool)
  | 0, _, _, _ => none
  | fuel + 1, current, endDate, acc =>
    if current ≤ endDate then
      completionGo dates fuel (succClamp current) endDate
        (acc ++ [dates.contains current])
    else some acc

/-- `h.get_completion_status(s, e)` returns the list `l`. -/
def CompletionResult (dates : List Int) (startDate endDate : Int)
    (l : List Bool) : Prop :=
  ∃ fuel, completionGo dates fuel startDate endDate [] = some l

/-! ### The spec-side streak walks

The specification describes `get_streak` as a backward walk that finds
"the latest completed date ≤ current".  The following definitions are
modelled from those words (to be compared with the source embedding
`streakGo` above). -/

def maxList : List Int → Option Int
  | [] => none
  | x :: xs =>
    some (match maxList xs with
          | none => x
          | some m => max x m)

def minList : List Int → Option Int
  | [] => none
  | x :: xs =>
    some (match minList xs with
          | none => x
          | some m => min x m)

/-- "The latest completed date ≤ current". -/
def latestCompletedLE (dates : List Int) (current : Int) : Option Int :=
  maxList (dates.filter (fun d => decide (d ≤ current)))

theorem maxList_mem : ∀ {l : List Int} {x : Int}, maxList l = some x → x ∈ l := by
  intro l
  induction l with
  | nil => intro x h; cases h
  | cons a t ih =>
    intro x h
    simp only [maxList] at h
    cases ht : maxList t with
    | none => rw [ht] at h; simp at h; simp [h]
    | some m =>
      rw [ht] at h
      simp only [Option.some.injEq] at h
      rcases max_choice a m with hm | hm
      · rw [hm] at h; simp [h]
      · rw [hm] at h; right; exact h ▸ ih ht

theorem le_maxList : ∀ {l : List Int} {x : Int}, maxList l = some x →
    ∀ y ∈ l, y ≤ x := by
  intro l
  induction l with
  | nil => intro x _ y hy; cases hy
  | cons a t ih =>
    intro x h y hy
    simp only [maxList] at h
    cases ht : maxList t with
    | none =>
      rw [ht] at h
      simp only [Option.some.injEq] at h
      cases hy with
      | head => omega
      | tail _ hyt => cases t with
        | nil => cases hyt
        | cons b s => simp [maxList] at ht
    | some m =>
      rw [ht] at h
      simp only [Option.some.injEq] at h
      cases hy with
      | head => subst h; exact le_max_left a m
      | tail _ hyt =>
        subst h
        exact le_trans (ih ht y hyt) (le_max_right a m)

theorem minList_le : ∀ {l : List Int} {m : Int}, minList l = some m →
    ∀ y ∈ l, m ≤ y := by
  intro l
  induction l with
  | nil => intro m _ y hy; cases hy
  | cons a t ih =>
    intro m h y hy
    simp only [minList] at h
    cases ht : minList t with
    | none =>
      rw [ht] at h
      simp only [Option.some.injEq] at h
      cases hy with
      | head => omega
      | tail _ hyt => cases t with
        | nil => cases hyt
        | cons b s => simp [minList] at ht
    | some m' =>
      rw [ht] at h
      simp only [Option.some.injEq] at h
      cases hy with
      | head => subst h; exact min_le_left a m'
      | tail _ hyt =>
        subst h
        exact le_trans (min_le_right a m') (ih ht y hyt)

theorem minList_isSome_of_mem {l : List Int} {x : Int} (hx : x ∈ l) :
    ∃ m, minList l = some m := by
  cases l with
  | nil => cases hx
  | cons a t => exact ⟨_, rfl⟩

theorem latestCompletedLE_facts {dates : List Int} {cur last : Int}
    (h : latestCompletedLE dates cur = some last) :
    last ∈ dates ∧ last ≤ cur ∧ ∀ y ∈ dates, y ≤ cur → y ≤ last := by
  have hmem := maxList_mem h
  simp only [List.mem_filter, decide_eq_true_eq] at hmem
  refine ⟨hmem.1, hmem.2, ?_⟩
  intro y hy hyc
  exact le_maxList h y (by simp [List.mem_filter, hy, hyc])

/-- Termination measure for the spec walks: distance from the earliest
completed date (0 if there are no completed dates). -/
def walkMeasure (dates : List Int) (cur : Int) : Nat :=
  match minList dates with
  | none => 0
  | some m => (cur + 1 - m).toNat

theorem walkMeasure_decreases {dates : List Int} {cur last cur' : Int}
    (h : latestCompletedLE dates cur = some last) (hlt : cur' < cur) :
    walkMeasure dates cur' < walkMeasure dates cur := by
  obtain ⟨hmem, hle, -⟩ := latestCompletedLE_facts h
  obtain ⟨m, hm⟩ := minList_isSome_of_mem hmem
  have hml : m ≤ last := minList_le hm last hmem
  simp only [walkMeasure, hm]
  omega

theorem one_le_domOf (z : Int) : 1 ≤ domOf z := by
  unfold domOf
  omega

/-- The Daily walk of the specification: count a step and move one day
back exactly when the latest completed date ≤ current equals current. -/
def specDailyWalk (dates : List Int) (cur : Int) : Nat :=
  match hl : latestCompletedLE dates cur with
  | none => 0
  | some last =>
    if last = cur then 1 + specDailyWalk dates (cur - 1) else 0
termination_by walkMeasure dates cur
decreasing_by
  exact walkMeasure_decreases hl (by omega)

/-- The Monthly walk of the specification: match when the latest
completed date ≤ current has the same calendar year and month as
current; step to the day before the first day of current's month. -/
def specMonthlyWalk (dates : List Int) (cur : Int) : Nat :=
  match hl : latestCompletedLE dates cur with
  | none => 0
  | some last =>
    if yearOf last = yearOf cur ∧ monthOf last = monthOf cur then
      1 + specMonthlyWalk dates (withDay1 cur - 1)
    else 0
termination_by walkMeasure dates cur
decreasing_by
  refine walkMeasure_decreases hl ?_
  have := one_le_domOf cur
  unfold withDay1
  omega

/-! ### Bridging the source loop and the spec walks -/

theorem maxList_append_singleton {l : List Int} {x : Int}
    (h : ∀ y ∈ l, y ≤ x) : maxList (l ++ [x]) = some x := by
  induction l with
  | nil => rfl
  | cons a t ih =>
    have ha : a ≤ x := h a (by simp)
    have ht := ih (fun y hy => h y (by simp [hy]))
    have hu : maxList (a :: (t ++ [x])) =
        some (match maxList (t ++ [x]) with
              | none => a
              | some m => max a m) := rfl
    rw [List.cons_append, hu, ht]
    simp [max_eq_right ha]

theorem lastLE_facts {dates : List Int} {cur last : Int}
    (h : lastLE dates cur = some last) : last ∈ dates ∧ last ≤ cur := by
  unfold lastLE at h
  have hmem := List.mem_of_find?_eq_some h
  have hp := List.find?_some h
  simp only [decide_eq_true_eq] at hp
  exact ⟨List.mem_reverse.mp hmem, hp⟩

/-- On a list sorted ascending — the `Habit` invariant — the source's
reverse-`find` returns exactly the spec's "latest completed date ≤
current". -/
theorem lastLE_eq_latest {dates : List Int}
    (hs : List.Sorted (· ≤ ·) dates) (cur : Int) :
    lastLE dates cur = latestCompletedLE dates cur := by
  induction dates using List.reverseRecOn with
  | nil => rfl
  | append_singleton ds x ih =>
    have hsp := List.pairwise_append.mp hs
    have hds : List.Sorted (· ≤ ·) ds := hsp.1
    have hbound : ∀ y ∈ ds, y ≤ x := fun y hy => hsp.2.2 y hy x (by simp)
    by_cases hx : x ≤ cur
    · have hl : lastLE (ds ++ [x]) cur = some x := by
        unfold lastLE
        simp [List.find?_cons, hx]
      have hr : latestCompletedLE (ds ++ [x]) cur = some x := by
        unfold latestCompletedLE
        rw [List.filter_append]
        have : List.filter (fun d => decide (d ≤ cur)) [x] = [x] := by
          simp [hx]
        rw [this]
        exact maxList_append_singleton
          (fun y hy => hbound y (List.mem_of_mem_filter hy))
      rw [hl, hr]
    · have hl : lastLE (ds ++ [x]) cur = lastLE ds cur := by
        unfold lastLE
        simp [List.find?_cons, hx]
      have hr : latestCompletedLE (ds ++ [x]) cur = latestCompletedLE ds cur := by
        unfold latestCompletedLE
        rw [List.filter_append]
        have : List.filter (fun d => decide (d ≤ cur)) [x] = [] := by
          simp [hx]
        rw [this, List.append_nil]
      rw [hl, hr, ih hds]

theorem streakGo_exit {freq : Frequency} {dates : List Int} {cur : Int}
    (fuel s : Nat) (h : lastLE dates cur = none) :
    streakGo freq dates (fuel + 1) cur s = some (.ok s) := by
  simp [streakGo, h]

theorem streakGo_daily_step {dates : List Int} {cur last : Int}
    (fuel s : Nat) (h : lastLE dates cur = some last) :
    streakGo .Daily dates (fuel + 1) cur s =
      if last = cur then streakGo .Daily dates fuel (predClamp cur) (s + 1)
      else some (.ok s) := by
  simp [streakGo, h]

theorem streakGo_weekly_step {dates : List Int} {cur last : Int}
    (fuel s : Nat) (h : lastLE dates cur = some last) :
    streakGo .Weekly dates (fuel + 1) cur s =
      if isoWeekIdx last = isoWeekIdx cur then
        match subDays cur 7 with
        | none => some .panic
        | some next => streakGo .Weekly dates fuel next (s + 1)
      else some (.ok s) := by
  simp [streakGo, h]

theorem streakGo_monthly_step {dates : List Int} {cur last : Int}
    (fuel s : Nat) (h : lastLE dates cur = some last) :
    streakGo .Monthly dates (fuel + 1) cur s =
      if yearOf last = yearOf cur ∧ monthOf last = monthOf cur then
        match subDays (withDay1 cur) 1 with
        | none => some .panic
        | some next => streakGo .Monthly dates fuel next (s + 1)
      else some (.ok s) := by
  simp [streakGo, h]

theorem subDays_eq_some {z amount next : Int} (h : subDays z amount = some next) :
    next = z - amount ∧ dateMIN ≤ z - amount := by
  unfold subDays at h
  by_cases hb : z - amount < dateMIN
  · rw [if_pos hb] at h
    cases h
  · rw [if_neg hb] at h
    injection h with e
    exact ⟨e.symm, by omega⟩

theorem subDays_of_le {z amount : Int} (h : dateMIN ≤ z - amount) :
    subDays z amount = some (z - amount) :=
  if_neg (by omega)

theorem subDays_of_lt {z amount : Int} (h : z - amount < dateMIN) :
    subDays z amount = none :=
  if_pos h

/-- More fuel never changes a result that was already reached. -/
theorem streakGo_mono {freq : Frequency} {dates : List Int} :
    ∀ {f1 f2 : Nat} {cur : Int} {s : Nat} {r : LoopRes}, f1 ≤ f2 →
      streakGo freq dates f1 cur s = some r →
      streakGo freq dates f2 cur s = some r := by
  intro f1
  induction f1 with
  | zero => intro f2 cur s r _ h; simp [streakGo] at h
  | succ f ih =>
    intro f2 cur s r hle h
    cases f2 with
    | zero => omega
    | succ g =>
      cases hl : lastLE dates cur with
      | none =>
        rw [streakGo_exit f s hl] at h
        rw [streakGo_exit g s hl]
        exact h
      | some last =>
        cases freq with
        | Daily =>
          rw [streakGo_daily_step f s hl] at h
          rw [streakGo_daily_step g s hl]
          by_cases hc : last = cur
          · rw [if_pos hc] at h ⊢; exact ih (by omega) h
          · rw [if_neg hc] at h ⊢; exact h
        | Weekly =>
          rw [streakGo_weekly_step f s hl] at h
          rw [streakGo_weekly_step g s hl]
          by_cases hc : isoWeekIdx last = isoWeekIdx cur
          · rw [if_pos hc] at h ⊢
            cases hsub : subDays cur 7 with
            | none => rw [hsub] at h; exact h
            | some next => rw [hsub] at h; exact ih (by omega) h
          · rw [if_neg hc] at h ⊢; exact h
        | Monthly =>
          rw [streakGo_monthly_step f s hl] at h
          rw [streakGo_monthly_step g s hl]
          by_cases hc : yearOf last = yearOf cur ∧ monthOf last = monthOf cur
          · rw [if_pos hc] at h ⊢
            cases hsub : subDays (withDay1 cur) 1 with
            | none => rw [hsub] at h; exact h
            | some next => rw [hsub] at h; exact ih (by omega) h
          · rw [if_neg hc] at h ⊢; exact h

/-- A `get_streak` run that returns has a unique result. -/
theorem streakResult_unique {freq : Frequency} {dates : List Int}
    {d : Int} {n m : Nat} (hn : StreakResult freq dates d n)
    (hm : StreakResult freq dates d m) : n = m := by
  obtain ⟨f1, h1⟩ := hn
  obtain ⟨f2, h2⟩ := hm
  have e1 := streakGo_mono (Nat.le_max_left f1 f2) h1
  have e2 := streakGo_mono (Nat.le_max_right f1 f2) h2
  rw [e1] at e2
  simp only [Option.some.injEq, LoopRes.ok.injEq] at e2
  exact e2

/-- Once the Daily loop matches at `NaiveDate::MIN`, `pred_opt` fails,
`unwrap_or` keeps the cursor in place, and the loop re-matches forever:
no fuel suffices. -/
theorem streakGo_daily_stuck {dates : List Int}
    (h : lastLE dates dateMIN = some dateMIN) :
    ∀ (f s : Nat), streakGo .Daily dates f dateMIN s = none := by
  intro f
  induction f with
  | zero => intro s; rfl
  | succ f ih =>
    intro s
    rw [streakGo_daily_step f s h, if_pos rfl]
    have hp : predClamp dateMIN = dateMIN := by simp [predClamp]
    rw [hp]
    exact ih (s + 1)

theorem specDailyWalk_none {dates : List Int} {cur : Int}
    (h : latestCompletedLE dates cur = none) :
    specDailyWalk dates cur = 0 := by
  rw [specDailyWalk]
  split
  · rfl
  · next last hl => rw [h] at hl; cases hl

theorem specDailyWalk_some {dates : List Int} {cur last : Int}
    (h : latestCompletedLE dates cur = some last) :
    specDailyWalk dates cur =
      if last = cur then 1 + specDailyWalk dates (cur - 1) else 0 := by
  rw [specDailyWalk]
  split
  · next hl => rw [h] at hl; cases hl
  · next l hl =>
    rw [h] at hl
    injection hl with e
    subst e
    rfl

theorem specMonthlyWalk_none {dates : List Int} {cur : Int}
    (h : latestCompletedLE dates cur = none) :
    specMonthlyWalk dates cur = 0 := by
  rw [specMonthlyWalk]
  split
  · rfl
  · next last hl => rw [h] at hl; cases hl

theorem specMonthlyWalk_some {dates : List Int} {cur last : Int}
    (h : latestCompletedLE dates cur = some last) :
    specMonthlyWalk dates cur =
      if yearOf last = yearOf cur ∧ monthOf last = monthOf cur then
        1 + specMonthlyWalk dates (withDay1 cur - 1)
      else 0 := by
  rw [specMonthlyWalk]
  split
  · next hl => rw [h] at hl; cases hl
  · next l hl =>
    rw [h] at hl
    injection hl with e
    subst e
    rfl

/-- Partial correctness of the Daily branch against the spec walk: any
value the source loop returns is the spec walk's count. -/
theorem streakGo_daily_spec {dates : List Int}
    (hs : List.Sorted (· ≤ ·) dates) :
    ∀ {f : Nat} {cur : Int} {s r : Nat},
      streakGo .Daily dates f cur s = some (.ok r) →
      r = s + specDailyWalk dates cur := by
  intro f
  induction f with
  | zero => intro cur s r h; simp [streakGo] at h
  | succ f ih =>
    intro cur s r h
    cases hl : lastLE dates cur with
    | none =>
      have hlat : latestCompletedLE dates cur = none :=
        (lastLE_eq_latest hs cur) ▸ hl
      rw [streakGo_exit f s hl] at h
      rw [specDailyWalk_none hlat]
      simp only [Option.some.injEq, LoopRes.ok.injEq] at h
      omega
    | some last =>
      have hlat : latestCompletedLE dates cur = some last :=
        (lastLE_eq_latest hs cur) ▸ hl
      rw [streakGo_daily_step f s hl] at h
      by_cases hc : last = cur
      · rw [if_pos hc] at h
        by_cases hmin : cur = dateMIN
        · subst hmin
          have hstuck := streakGo_daily_stuck (hc ▸ hl) f (s + 1)
          rw [show predClamp dateMIN = dateMIN from by simp [predClamp]] at h
          rw [hstuck] at h
          cases h
        · rw [show predClamp cur = cur - 1 from if_neg hmin] at h
          have := ih h
          rw [specDailyWalk_some hlat, if_pos hc]
          omega
      · rw [if_neg hc] at h
        rw [specDailyWalk_some hlat, if_neg hc]
        simp only [Option.some.injEq, LoopRes.ok.injEq] at h
        omega

/-- Partial correctness of the Monthly branch against the spec walk. -/
theorem streakGo_monthly_spec {dates : List Int}
    (hs : List.Sorted (· ≤ ·) dates) :
    ∀ {f : Nat} {cur : Int} {s r : Nat},
      streakGo .Monthly dates f cur s = some (.ok r) →
      r = s + specMonthlyWalk dates cur := by
  intro f
  induction f with
  | zero => intro cur s r h; simp [streakGo] at h
  | succ f ih =>
    intro cur s r h
    cases hl : lastLE dates cur with
    | none =>
      have hlat : latestCompletedLE dates cur = none :=
        (lastLE_eq_latest hs cur) ▸ hl
      rw [streakGo_exit f s hl] at h
      rw [specMonthlyWalk_none hlat]
      simp only [Option.some.injEq, LoopRes.ok.injEq] at h
      omega
    | some last =>
      have hlat : latestCompletedLE dates cur = some last :=
        (lastLE_eq_latest hs cur) ▸ hl
      rw [streakGo_monthly_step f s hl] at h
      by_cases hc : yearOf last = yearOf cur ∧ monthOf last = monthOf cur
      · rw [if_pos hc] at h
        cases hsub : subDays (withDay1 cur) 1 with
        | none =>
          rw [hsub] at h
          simp at h
        | some next =>
          rw [hsub] at h
          obtain ⟨hnext, -⟩ := subDays_eq_some hsub
          have h2 : streakGo .Monthly dates f next (s + 1) = some (.ok r) := h
          rw [hnext] at h2
          have := ih h2
          rw [specMonthlyWalk_some hlat, if_pos hc]
          omega
      · rw [if_neg hc] at h
        rw [specMonthlyWalk_some hlat, if_neg hc]
        simp only [Option.some.injEq, LoopRes.ok.injEq] at h
        omega

theorem walkMeasure_lt {dates : List Int} {last cur cur' : Int}
    (hmem : last ∈ dates) (hle : last ≤ cur) (hlt : cur' < cur) :
    walkMeasure dates cur' < walkMeasure dates cur := by
  obtain ⟨m, hm⟩ := minList_isSome_of_mem hmem
  have hml : m ≤ last := minList_le hm last hmem
  simp only [walkMeasure, hm]
  omega

theorem domOf_le_31 (z : Int) : domOf z ≤ 31 := by
  unfold domOf mpOf
  omega

/-- With the minimum representable date not completed (a condition only
the Daily clamp needs), the loop can run only finitely many iterations:
each matched step strictly decreases the cursor, which is bounded below
by the earliest completed date.  Every run therefore ends — normally,
or by the panic of the Weekly/Monthly date subtraction. -/
theorem streakGo_ends {freq : Frequency} {dates : List Int}
    (hmin : freq = .Daily → dateMIN ∉ dates) :
    ∀ (fuel : Nat) (cur : Int) (s : Nat), walkMeasure dates cur < fuel →
      ∃ r, streakGo freq dates fuel cur s = some r := by
  intro fuel
  induction fuel with
  | zero => intro cur s h; omega
  | succ f ih =>
    intro cur s hf
    cases hl : lastLE dates cur with
    | none => exact ⟨.ok s, streakGo_exit f s hl⟩
    | some last =>
      obtain ⟨hmem, hle⟩ := lastLE_facts hl
      cases freq with
      | Daily =>
        rw [streakGo_daily_step f s hl]
        by_cases hc : last = cur
        · rw [if_pos hc]
          have hne : cur ≠ dateMIN := by
            intro e
            exact (hmin rfl) (e ▸ hc ▸ hmem)
          rw [show predClamp cur = cur - 1 from if_neg hne]
          refine ih (cur - 1) (s + 1) ?_
          have := walkMeasure_lt hmem hle (show cur - 1 < cur by omega)
          omega
        · rw [if_neg hc]; exact ⟨.ok s, rfl⟩
      | Weekly =>
        rw [streakGo_weekly_step f s hl]
        by_cases hc : isoWeekIdx last = isoWeekIdx cur
        · rw [if_pos hc]
          cases hsub : subDays cur 7 with
          | none => exact ⟨.panic, rfl⟩
          | some next =>
            obtain ⟨hnext, -⟩ := subDays_eq_some hsub
            subst hnext
            have hms := walkMeasure_lt hmem hle (show cur - 7 < cur by omega)
            obtain ⟨r, hr⟩ := ih (cur - 7) (s + 1) (by omega)
            exact ⟨r, hr⟩
        · rw [if_neg hc]; exact ⟨.ok s, rfl⟩
      | Monthly =>
        rw [streakGo_monthly_step f s hl]
        by_cases hc : yearOf last = yearOf cur ∧ monthOf last = monthOf cur
        · rw [if_pos hc]
          cases hsub : subDays (withDay1 cur) 1 with
          | none => exact ⟨.panic, rfl⟩
          | some next =>
            obtain ⟨hnext, -⟩ := subDays_eq_some hsub
            subst hnext
            have hd := one_le_domOf cur
            have hlt : withDay1 cur - 1 < cur := by
              unfold withDay1; omega
            have hms := walkMeasure_lt hmem hle hlt
            obtain ⟨r, hr⟩ := ih (withDay1 cur - 1) (s + 1) (by omega)
            exact ⟨r, hr⟩
        · rw [if_neg hc]; exact ⟨.ok s, rfl⟩

/-- Daily runs with `NaiveDate::MIN` not completed end normally. -/
theorem streakGo_ok_daily {dates : List Int} (hmin : dateMIN ∉ dates) :
    ∀ (fuel : Nat) (cur : Int) (s : Nat), walkMeasure dates cur < fuel →
      ∃ n, streakGo .Daily dates fuel cur s = some (.ok n) := by
  intro fuel
  induction fuel with
  | zero => intro cur s h; omega
  | succ f ih =>
    intro cur s hf
    cases hl : lastLE dates cur with
    | none => exact ⟨s, streakGo_exit f s hl⟩
    | some last =>
      obtain ⟨hmem, hle⟩ := lastLE_facts hl
      rw [streakGo_daily_step f s hl]
      by_cases hc : last = cur
      · rw [if_pos hc]
        have hne : cur ≠ dateMIN := fun e => hmin (e ▸ hc ▸ hmem)
        rw [show predClamp cur = cur - 1 from if_neg hne]
        refine ih (cur - 1) (s + 1) ?_
        have := walkMeasure_lt hmem hle (show cur - 1 < cur by omega)
        omega
      · rw [if_neg hc]; exact ⟨s, rfl⟩

/-- Weekly runs whose completed dates all lie at least 7 days above
`NaiveDate::MIN` end normally: a matched cursor is at least some
completed date, so the 7-day step never crosses the minimum. -/
theorem streakGo_ok_weekly {dates : List Int}
    (hlb : ∀ x ∈ dates, dateMIN + 7 ≤ x) :
    ∀ (fuel : Nat) (cur : Int) (s : Nat), walkMeasure dates cur < fuel →
      ∃ n, streakGo .Weekly dates fuel cur s = some (.ok n) := by
  intro fuel
  induction fuel with
  | zero => intro cur s h; omega
  | succ f ih =>
    intro cur s hf
    cases hl : lastLE dates cur with
    | none => exact ⟨s, streakGo_exit f s hl⟩
    | some last =>
      obtain ⟨hmem, hle⟩ := lastLE_facts hl
      rw [streakGo_weekly_step f s hl]
      by_cases hc : isoWeekIdx last = isoWeekIdx cur
      · rw [if_pos hc]
        have hcur : dateMIN + 7 ≤ cur := le_trans (hlb last hmem) hle
        rw [subDays_of_le (by omega)]
        have hms := walkMeasure_lt hmem hle (show cur - 7 < cur by omega)
        obtain ⟨n, hn⟩ := ih (cur - 7) (s + 1) (by omega)
        exact ⟨n, hn⟩
      · rw [if_neg hc]; exact ⟨s, rfl⟩

/-- Monthly runs whose completed dates all lie at least 31 days above
`NaiveDate::MIN` end normally: a matched cursor is at least some
completed date, and stepping to the day before the first of its month
moves back at most 31 days (`domOf z ≤ 31`). -/
theorem streakGo_ok_monthly {dates : List Int}
    (hlb : ∀ x ∈ dates, dateMIN + 31 ≤ x) :
    ∀ (fuel : Nat) (cur : Int) (s : Nat), walkMeasure dates cur < fuel →
      ∃ n, streakGo .Monthly dates fuel cur s = some (.ok n) := by
  intro fuel
  induction fuel with
  | zero => intro cur s h; omega
  | succ f ih =>
    intro cur s hf
    cases hl : lastLE dates cur with
    | none => exact ⟨s, streakGo_exit f s hl⟩
    | some last =>
      obtain ⟨hmem, hle⟩ := lastLE_facts hl
      rw [streakGo_monthly_step f s hl]
      by_cases hc : yearOf last = yearOf cur ∧ monthOf last = monthOf cur
      · rw [if_pos hc]
        have hcur : dateMIN + 31 ≤ cur := le_trans (hlb last hmem) hle
        have hd1 := one_le_domOf cur
        have hd31 := domOf_le_31 cur
        rw [show subDays (withDay1 cur) 1 = some (withDay1 cur - 1) from
          subDays_of_le (by unfold withDay1; omega)]
        have hlt : withDay1 cur - 1 < cur := by unfold withDay1; omega
        have hms := walkMeasure_lt hmem hle hlt
        obtain ⟨n, hn⟩ := ih (withDay1 cur - 1) (s + 1) (by omega)
        exact ⟨n, hn⟩
      · rw [if_neg hc]; exact ⟨s, rfl⟩

/-! ### Example habits from the spec's test vectors -/

/-- A habit completed on 2024-01-01 through 2024-01-05. -/
def exDailyHabit : Habit :=
  (((((Habit.new "running" "health" .Daily).mark_completed
      (daysFromCivil 2024 1 1)).mark_completed
      (daysFromCivil 2024 1 2)).mark_completed
      (daysFromCivil 2024 1 3)).mark_completed
      (daysFromCivil 2024 1 4)).mark_completed
      (daysFromCivil 2024 1 5)

/-- A habit completed on 2024-01-15, 2024-02-10 and 2024-03-05. -/
def exMonthlyHabit : Habit :=
  (((Habit.new "review" "work" .Monthly).mark_completed
      (daysFromCivil 2024 1 15)).mark_completed
      (daysFromCivil 2024 2 10)).mark_completed
      (daysFromCivil 2024 3 5)

/-- A Daily habit whose only completed date is `NaiveDate::MIN`. -/
def minHabit : Habit :=
  (Habit.new "edge" "c" .Daily).mark_completed dateMIN

/-! ### Claims C1, C3, C4 -/

/-- C1: for every habit with Daily frequency (its `completed_dates`
sorted ascending, the `Habit` invariant) and every end date, any value
`get_streak` returns equals the count of the spec's backward walk
(`specDailyWalk`); whenever the minimum representable date is not
completed the loop also terminates, so `get_streak` equals the walk
count outright; in particular the habit completed on 2024-01-01 through
2024-01-05 has `get_streak(2024-01-05) = 5` and
`get_streak(2024-01-06) = 0`. -/
theorem c1_daily_streak_follows_spec_walk :
    (∀ (h : Habit) (d : Int) (n : Nat), h.frequency = .Daily →
        List.Sorted (· ≤ ·) h.completed_dates →
        h.streakResult d n → n = specDailyWalk h.completed_dates d)
    ∧ (∀ (h : Habit) (d : Int), h.frequency = .Daily →
        List.Sorted (· ≤ ·) h.completed_dates →
        dateMIN ∉ h.completed_dates →
        ∃ n, h.streakResult d n ∧ n = specDailyWalk h.completed_dates d)
    ∧ exDailyHabit.streakResult (daysFromCivil 2024 1 5) 5
    ∧ exDailyHabit.streakResult (daysFromCivil 2024 1 6) 0 := by
  refine ⟨?_, ?_, ⟨6, by decide⟩, ⟨6, by decide⟩⟩
  · intro h d n hfreq hs hres
    obtain ⟨fuel, hf⟩ := hres
    rw [hfreq] at hf
    simpa using streakGo_daily_spec hs hf
  · intro h d hfreq hs hmin
    obtain ⟨n, hn⟩ := streakGo_ok_daily hmin
      (walkMeasure h.completed_dates d + 1) d 0 (by omega)
    refine ⟨n, ⟨walkMeasure h.completed_dates d + 1, ?_⟩, ?_⟩
    · rw [hfreq]
      exact hn
    · simpa using streakGo_daily_spec hs hn

theorem c1_daily_streak_follows_spec_walk_witness :
    exDailyHabit.frequency = .Daily
    ∧ List.Sorted (· ≤ ·) exDailyHabit.completed_dates
    ∧ exDailyHabit.streakResult (daysFromCivil 2024 1 5) 5
    ∧ 5 = specDailyWalk exDailyHabit.completed_dates (daysFromCivil 2024 1 5) :=
  ⟨rfl, by decide, ⟨6, by decide⟩,
    c1_daily_streak_follows_spec_walk.1 exDailyHabit (daysFromCivil 2024 1 5) 5
      rfl (by decide) ⟨6, by decide⟩⟩

/-- C3: for every habit with Monthly frequency (sorted completion
dates) and every end date, any value `get_streak` returns equals the
count of the spec's Monthly backward walk (same calendar year/month
match, step to the day before the first day of the current month);
whenever every completed date lies at least 31 days above
`NaiveDate::MIN` — so that no month step can cross the minimum and
panic — the loop also terminates normally and `get_streak` equals the
walk count outright; in particular the habit completed on 2024-01-15,
2024-02-10 and 2024-03-05 has `get_streak(2024-03-20) = 3`.  The panic
of the month step near `NaiveDate::MIN` is exhibited under C4. -/
theorem c3_monthly_streak_follows_spec_walk :
    (∀ (h : Habit) (d : Int) (n : Nat), h.frequency = .Monthly →
        List.Sorted (· ≤ ·) h.completed_dates →
        h.streakResult d n → n = specMonthlyWalk h.completed_dates d)
    ∧ (∀ (h : Habit) (d : Int), h.frequency = .Monthly →
        List.Sorted (· ≤ ·) h.completed_dates →
        (∀ x ∈ h.completed_dates, dateMIN + 31 ≤ x) →
        ∃ n, h.streakResult d n ∧ n = specMonthlyWalk h.completed_dates d)
    ∧ exMonthlyHabit.streakResult (daysFromCivil 2024 3 20) 3 := by
  refine ⟨?_, ?_, ⟨5, by decide⟩⟩
  · intro h d n hfreq hs hres
    obtain ⟨fuel, hf⟩ := hres
    rw [hfreq] at hf
    simpa using streakGo_monthly_spec hs hf
  · intro h d hfreq hs hlb
    obtain ⟨n, hn⟩ := streakGo_ok_monthly hlb
      (walkMeasure h.completed_dates d + 1) d 0 (by omega)
    refine ⟨n, ⟨walkMeasure h.completed_dates d + 1, ?_⟩, ?_⟩
    · rw [hfreq]
      exact hn
    · simpa using streakGo_monthly_spec hs hn

theorem c3_monthly_streak_follows_spec_walk_witness :
    exMonthlyHabit.frequency = .Monthly
    ∧ List.Sorted (· ≤ ·) exMonthlyHabit.completed_dates
    ∧ exMonthlyHabit.streakResult (daysFromCivil 2024 3 20) 3
    ∧ 3 = specMonthlyWalk exMonthlyHabit.completed_dates (daysFromCivil 2024 3 20) :=
  ⟨rfl, by decide, ⟨5, by decide⟩,
    c3_monthly_streak_follows_spec_walk.1 exMonthlyHabit (daysFromCivil 2024 3 20) 3
      rfl (by decide) ⟨5, by decide⟩⟩

/-- C4 counterexample: `get_streak` is not total over all representable
dates.  For a Daily habit completed on `NaiveDate::MIN`, the walk from
`end_date = NaiveDate::MIN` matches, `pred_opt()` returns `None`,
`unwrap_or` leaves `current` unchanged, and the loop re-matches forever:
no amount of fuel makes the loop exit, refuting the claimed strict
decrease of `current` on every iteration. -/
theorem c4_counterexample_streak_diverges_at_min :
    ¬ ∃ n, minHabit.streakResult dateMIN n := by
  rintro ⟨n, fuel, hf⟩
  have hlast : lastLE minHabit.completed_dates dateMIN = some dateMIN := by
    decide
  have hstuck := streakGo_daily_stuck hlast fuel 0
  rw [show minHabit.frequency = .Daily from rfl] at hf
  rw [hstuck] at hf
  cases hf

/-- C4 (amended): `current` strictly decreases on every iteration
except the Daily clamp at `NaiveDate::MIN`, so whenever the minimum
representable date is not completed (a condition only the Daily branch
needs) the loop never runs forever: every run ends, normally or by the
panic of the Weekly/Monthly `NaiveDate - Duration` subtraction below
`NaiveDate::MIN`.  Daily runs without `NaiveDate::MIN` completed end
normally.  `get_streak` is still not total over the representable
dates: the Daily loop diverges at `NaiveDate::MIN` when that date is
completed (the counterexample), and Weekly/Monthly runs whose step
crosses below `NaiveDate::MIN` panic, exhibited here for
`completed_dates = [MIN + 1]` at `end_date = MIN + 1`. -/
theorem c4_streak_loop_always_ends :
    (∀ (h : Habit) (d : Int),
        (h.frequency = .Daily → dateMIN ∉ h.completed_dates) →
        ∃ fuel r, streakGo h.frequency h.completed_dates fuel d 0 = some r)
    ∧ (∀ (h : Habit) (d : Int), h.frequency = .Daily →
        dateMIN ∉ h.completed_dates → ∃ n, h.streakResult d n)
    ∧ streakGo .Weekly [dateMIN + 1] 1 (dateMIN + 1) 0 = some .panic
    ∧ streakGo .Monthly [dateMIN + 1] 1 (dateMIN + 1) 0 = some .panic := by
  refine ⟨?_, ?_, by decide, by decide⟩
  · intro h d hmin
    obtain ⟨r, hr⟩ := streakGo_ends hmin
      (walkMeasure h.completed_dates d + 1) d 0 (by omega)
    exact ⟨walkMeasure h.completed_dates d + 1, r, hr⟩
  · intro h d hfreq hmin
    obtain ⟨n, hn⟩ := streakGo_ok_daily hmin
      (walkMeasure h.completed_dates d + 1) d 0 (by omega)
    refine ⟨n, walkMeasure h.completed_dates d + 1, ?_⟩
    rw [hfreq]
    exact hn

theorem c4_streak_loop_always_ends_witness :
    (exDailyHabit.frequency = .Daily → dateMIN ∉ exDailyHabit.completed_dates)
    ∧ ∃ fuel r, streakGo exDailyHabit.frequency exDailyHabit.completed_dates
        fuel (daysFromCivil 2024 1 5) 0 = some r :=
  ⟨by decide,
    c4_streak_loop_always_ends.1 exDailyHabit (daysFromCivil 2024 1 5)
      (by decide)⟩

/-! ### Claim C2 (Weekly streaks) -/

theorem isoWeekIdx_eq_div (z : Int) : isoWeekIdx z = (z + 3) / 7 := rfl

theorem isoWeekIdx_sub_week (z : Int) : isoWeekIdx (z - 7) = isoWeekIdx z - 1 := by
  rw [isoWeekIdx_eq_div, isoWeekIdx_eq_div]
  have h : z - 7 + 3 = (z + 3) + (-1) * 7 := by ring
  rw [h, Int.add_mul_ediv_right _ _ (by norm_num : (7 : Int) ≠ 0)]
  ring

theorem isoWeekIdx_mono {x y : Int} (h : x ≤ y) : isoWeekIdx x ≤ isoWeekIdx y := by
  rw [isoWeekIdx_eq_div, isoWeekIdx_eq_div]
  exact Int.ediv_le_ediv (by norm_num) (by omega)

theorem lt_of_isoWeekIdx_lt {x y : Int} (h : isoWeekIdx x < isoWeekIdx y) :
    x < y := by
  by_contra hc
  exact absurd (isoWeekIdx_mono (by omega : y ≤ x)) (by omega)

/-- A habit completed once in each of three consecutive ISO weeks:
Monday 2024-01-01 (week 1), Monday 2024-01-08 (week 2), Sunday
2024-01-21 (week 3). -/
def exWeeklyHabit : Habit :=
  (((Habit.new "gym" "health" .Weekly).mark_completed
      (daysFromCivil 2024 1 1)).mark_completed
      (daysFromCivil 2024 1 8)).mark_completed
      (daysFromCivil 2024 1 21)

/-- C2 counterexample: the habit above is completed exactly once in each
of three consecutive ISO weeks, and Monday 2024-01-15 lies in the third
of those weeks, yet `get_streak(2024-01-15)` returns 0, not 3: the
latest completed date ≤ 2024-01-15 is 2024-01-08, which lies in the
second week, so the very first match test fails. -/
theorem c2_counterexample_weekly_streak :
    exWeeklyHabit.completed_dates =
      [daysFromCivil 2024 1 1, daysFromCivil 2024 1 8, daysFromCivil 2024 1 21]
    ∧ isoWeekIdx (daysFromCivil 2024 1 8) = isoWeekIdx (daysFromCivil 2024 1 1) + 1
    ∧ isoWeekIdx (daysFromCivil 2024 1 21) = isoWeekIdx (daysFromCivil 2024 1 8) + 1
    ∧ isoWeekIdx (daysFromCivil 2024 1 15) = isoWeekIdx (daysFromCivil 2024 1 21)
    ∧ exWeeklyHabit.streakResult (daysFromCivil 2024 1 15) 0
    ∧ ¬ exWeeklyHabit.streakResult (daysFromCivil 2024 1 15) 3 := by
  refine ⟨by decide, by decide, by decide, by decide, ⟨1, by decide⟩, ?_⟩
  intro h3
  have h0 : exWeeklyHabit.streakResult (daysFromCivil 2024 1 15) 0 := ⟨1, by decide⟩
  have := streakResult_unique h3 h0
  omega

/-- C2 (amended): for a Weekly habit completed exactly once in each of
three consecutive ISO weeks, `get_streak(d) = 3` holds for a date `d`
in the third week provided each week's completion date does not lie
after the walk's cursor for that week (`c ≤ d`, `b ≤ d - 7`,
`a ≤ d - 14`) — in particular for the last day of the third week — and
`d` lies at least 21 days above `NaiveDate::MIN`, so that the three
7-day steps of the walk stay in range (closer to the minimum, the
`NaiveDate - Duration` subtraction panics instead of returning); for
other dates of the third week the streak can be smaller, as the
counterexample shows. -/
theorem c2_weekly_streak_three_consecutive_weeks :
    ∀ (nm cat : String) (a b c d : Int),
      isoWeekIdx b = isoWeekIdx a + 1 →
      isoWeekIdx c = isoWeekIdx b + 1 →
      isoWeekIdx d = isoWeekIdx c →
      c ≤ d → b ≤ d - 7 → a ≤ d - 14 →
      dateMIN + 21 ≤ d →
      Habit.streakResult
        { name := nm, category := cat, frequency := .Weekly,
          completed_dates := [a, b, c] } d 3 := by
  intro nm cat a b c d hab hbc hdc hcd hbd had hd21
  have hw1 : isoWeekIdx (d - 7) = isoWeekIdx d - 1 := isoWeekIdx_sub_week d
  have hw2 : isoWeekIdx (d - 7 - 7) = isoWeekIdx d - 2 := by
    rw [isoWeekIdx_sub_week, hw1]
    ring
  have hw3 : isoWeekIdx (d - 7 - 7 - 7) = isoWeekIdx d - 3 := by
    rw [isoWeekIdx_sub_week, hw2]
    ring
  -- the completion dates are strictly later than later cursors
  have hcd7 : ¬ c ≤ d - 7 := by
    intro hle
    have := isoWeekIdx_mono hle
    omega
  have hbd14 : ¬ b ≤ d - 7 - 7 := by
    intro hle
    have := isoWeekIdx_mono hle
    omega
  have hcd14 : ¬ c ≤ d - 7 - 7 := by
    intro hle
    have := isoWeekIdx_mono hle
    omega
  have had21 : ¬ a ≤ d - 7 - 7 - 7 := by
    intro hle
    have := isoWeekIdx_mono hle
    omega
  have hbd21 : ¬ b ≤ d - 7 - 7 - 7 := by
    intro hle
    have := isoWeekIdx_mono hle
    omega
  have hcd21 : ¬ c ≤ d - 7 - 7 - 7 := by
    intro hle
    have := isoWeekIdx_mono hle
    omega
  have l1 : lastLE [a, b, c] d = some c := by
    show List.find? (fun x => decide (x ≤ d)) [c, b, a] = some c
    simp [hcd]
  have l2 : lastLE [a, b, c] (d - 7) = some b := by
    show List.find? (fun x => decide (x ≤ d - 7)) [c, b, a] = some b
    simp [hcd7, hbd]
  have l3 : lastLE [a, b, c] (d - 7 - 7) = some a := by
    show List.find? (fun x => decide (x ≤ d - 7 - 7)) [c, b, a] = some a
    simp [hcd14, hbd14, show a ≤ d - 7 - 7 by omega]
  have l4 : lastLE [a, b, c] (d - 7 - 7 - 7) = none := by
    show List.find? (fun x => decide (x ≤ d - 7 - 7 - 7)) [c, b, a] = none
    simp [hcd21, hbd21, had21]
  show StreakResult .Weekly [a, b, c] d 3
  refine ⟨4, ?_⟩
  show streakGo .Weekly [a, b, c] (3 + 1) d 0 = some (.ok 3)
  rw [streakGo_weekly_step 3 0 l1,
    if_pos (show isoWeekIdx c = isoWeekIdx d by omega),
    subDays_of_le (show dateMIN ≤ d - 7 by omega)]
  show streakGo .Weekly [a, b, c] (2 + 1) (d - 7) 1 = some (.ok 3)
  rw [streakGo_weekly_step 2 1 l2,
    if_pos (show isoWeekIdx b = isoWeekIdx (d - 7) by omega),
    subDays_of_le (show dateMIN ≤ d - 7 - 7 by omega)]
  show streakGo .Weekly [a, b, c] (1 + 1) (d - 7 - 7) 2 = some (.ok 3)
  rw [streakGo_weekly_step 1 2 l3,
    if_pos (show isoWeekIdx a = isoWeekIdx (d - 7 - 7) by omega),
    subDays_of_le (show dateMIN ≤ d - 7 - 7 - 7 by omega)]
  show streakGo .Weekly [a, b, c] (0 + 1) (d - 7 - 7 - 7) 3 = some (.ok 3)
  exact streakGo_exit 0 3 l4

theorem c2_weekly_streak_three_consecutive_weeks_witness :
    isoWeekIdx 19730 = isoWeekIdx 19723 + 1
    ∧ isoWeekIdx 19737 = isoWeekIdx 19730 + 1
    ∧ isoWeekIdx 19739 = isoWeekIdx 19737
    ∧ dateMIN + 21 ≤ 19739
    ∧ Habit.streakResult
        { name := "gym", category := "health", frequency := .Weekly,
          completed_dates := [19723, 19730, 19737] } 19739 3 :=
  ⟨by decide, by decide, by decide, by decide,
    c2_weekly_streak_three_consecutive_weeks "gym" "health" 19723 19730 19737 19739
      (by decide) (by decide) (by decide) (by decide) (by decide) (by decide)
      (by decide)⟩

/-! ### Claim C7 (get_completion_status) -/

/-- The intended value of `get_completion_status`: one membership test
per day of `[cur, e]` in ascending order. -/
def statusFrom (dates : List Int) (cur e : Int) : List Bool :=
  if cur ≤ e then dates.contains cur :: statusFrom dates (cur + 1) e else []
termination_by (e + 1 - cur).toNat
decreasing_by
  simp_wf
  omega

theorem statusFrom_eq (dates : List Int) (cur e : Int) :
    statusFrom dates cur e =
      if cur ≤ e then dates.contains cur :: statusFrom dates (cur + 1) e
      else [] := by
  rw [statusFrom]

theorem statusFrom_length (dates : List Int) :
    ∀ (n : Nat) (cur e : Int), (e + 1 - cur).toNat ≤ n →
      (statusFrom dates cur e).length = (e + 1 - cur).toNat := by
  intro n
  induction n with
  | zero =>
    intro cur e hn
    rw [statusFrom_eq, if_neg (by omega)]
    simp
    omega
  | succ n ih =>
    intro cur e hn
    by_cases hce : cur ≤ e
    · rw [statusFrom_eq, if_pos hce]
      have := ih (cur + 1) e (by omega)
      simp only [List.length_cons, this]
      omega
    · rw [statusFrom_eq, if_neg hce]
      simp
      omega

theorem statusFrom_get? (dates : List Int) :
    ∀ (n : Nat) (cur e : Int) (i : Nat), (e + 1 - cur).toNat ≤ n →
      i < (statusFrom dates cur e).length →
      (statusFrom dates cur e).get? i = some (dates.contains (cur + i)) := by
  intro n
  induction n with
  | zero =>
    intro cur e i hn hi
    rw [statusFrom_length dates 0 cur e hn] at hi
    omega
  | succ n ih =>
    intro cur e i hn hi
    by_cases hce : cur ≤ e
    · rw [statusFrom_eq, if_pos hce]
      cases i with
      | zero => simp
      | succ j =>
        rw [statusFrom_eq, if_pos hce] at hi
        simp only [List.length_cons] at hi
        have := ih (cur + 1) e j (by omega) (by omega)
        simp only [List.get?_cons_succ, this]
        have harg : cur + 1 + (j : Int) = cur + ((j : Int) + 1) := by ring
        rw [harg]
        norm_num
    · rw [statusFrom_eq, if_neg hce] at hi
      simp at hi

/-- Once the completion loop reaches `current = endDate = NaiveDate::MAX`,
`succ_opt` fails, `unwrap_or` keeps the cursor in place, and the loop
re-enters forever. -/
theorem completionGo_stuck (dates : List Int) :
    ∀ (fuel : Nat) (acc : List Bool),
      completionGo dates fuel dateMAX dateMAX acc = none := by
  intro fuel
  induction fuel with
  | zero => intro acc; rfl
  | succ f ih =>
    intro acc
    simp only [completionGo, if_pos (le_refl dateMAX)]
    rw [show succClamp dateMAX = dateMAX from by simp [succClamp]]
    exact ih (acc ++ [dates.contains dateMAX])

theorem completionGo_spec (dates : List Int) (e : Int) (hmax : e < dateMAX) :
    ∀ (fuel : Nat) (cur : Int) (acc : List Bool),
      (e + 1 - cur).toNat < fuel →
      completionGo dates fuel cur e acc = some (acc ++ statusFrom dates cur e) := by
  intro fuel
  induction fuel with
  | zero => intro cur acc h; omega
  | succ f ih =>
    intro cur acc hfuel
    by_cases hce : cur ≤ e
    · have hne : cur ≠ dateMAX := by omega
      simp only [completionGo, if_pos hce]
      rw [show succClamp cur = cur + 1 from if_neg hne]
      rw [ih (cur + 1) (acc ++ [dates.contains cur]) (by omega)]
      rw [statusFrom_eq dates cur e, if_pos hce]
      simp
    · simp only [completionGo, if_neg hce]
      rw [statusFrom_eq dates cur e, if_neg hce]
      simp

/-- C7 counterexample: `get_completion_status` is not total.  With
`start = end = NaiveDate::MAX` the claim asserts a result of length 1,
but `succ_opt()` returns `None`, `unwrap_or` leaves `current` at the
maximum, `current <= end` keeps holding, and the loop never returns. -/
theorem c7_counterexample_completion_diverges_at_max :
    ¬ ∃ l, CompletionResult (Habit.new "stretch" "health" .Daily).completed_dates
      dateMAX dateMAX l := by
  rintro ⟨l, fuel, hf⟩
  rw [completionGo_stuck _ fuel []] at hf
  cases hf

/-- C7 (amended): for every habit and all dates `s`, `e` with either
`e` below the maximum representable date or `e < s`,
`get_completion_status(s, e)` terminates and returns a sequence of
length 0 when `e < s` and `(e − s).days + 1` otherwise, whose `i`-th
element is `is_completed(s + i)`; at `e = NaiveDate::MAX` with `s ≤ e`
the loop never terminates (see the counterexample). -/
theorem c7_completion_status_shape :
    ∀ (h : Habit) (s e : Int), (e < dateMAX ∨ e < s) →
      ∃ l, CompletionResult h.completed_dates s e l
        ∧ l.length = (if e < s then 0 else (e + 1 - s).toNat)
        ∧ ∀ i : Nat, i < l.length →
            l.get? i = some (h.is_completed (s + i)) := by
  intro h s e hcase
  by_cases hes : e < s
  · refine ⟨[], ⟨1, ?_⟩, ?_, ?_⟩
    · simp only [completionGo, if_neg (show ¬ s ≤ e by omega)]
    · simp [hes]
    · intro i hi
      simp at hi
  · have hmax : e < dateMAX := by
      rcases hcase with hc | hc
      · exact hc
      · omega
    refine ⟨statusFrom h.completed_dates s e, ⟨(e + 1 - s).toNat + 1, ?_⟩, ?_, ?_⟩
    · have := completionGo_spec h.completed_dates e hmax
        ((e + 1 - s).toNat + 1) s [] (by omega)
      simpa using this
    · rw [statusFrom_length h.completed_dates (e + 1 - s).toNat s e (by omega)]
      rw [if_neg hes]
    · intro i hi
      exact statusFrom_get? h.completed_dates (e + 1 - s).toNat s e i (by omega) hi

theorem c7_completion_status_shape_witness :
    ((0 : Int) < dateMAX ∨ (0 : Int) < -2)
    ∧ ∃ l, CompletionResult (Habit.new "stretch" "health" .Daily).completed_dates
        (-2) 0 l
      ∧ l.length = (if (0 : Int) < -2 then 0 else ((0 : Int) + 1 - (-2)).toNat)
      ∧ ∀ i : Nat, i < l.length →
          l.get? i = some ((Habit.new "stretch" "health" .Daily).is_completed (-2 + i)) :=
  ⟨Or.inl (by decide),
    c7_completion_status_shape (Habit.new "stretch" "health" .Daily) (-2) 0
      (Or.inl (by decide))⟩

/-! ### Claim C9 (the completed_dates invariant) -/

/-- C9: `completed_dates` is empty at creation, stays sorted ascending
and duplicate-free across `mark_completed` and `unmark_completed`, and
marking an already-present date or unmarking an absent date leaves the
habit unchanged. -/
theorem c9_completed_dates_invariant :
    (∀ (nm cat : String) (f : Frequency), (Habit.new nm cat f).completed_dates = [])
    ∧ (∀ (h : Habit) (d : Int),
        List.Sorted (· ≤ ·) h.completed_dates → h.completed_dates.Nodup →
          List.Sorted (· ≤ ·) (h.mark_completed d).completed_dates
          ∧ (h.mark_completed d).completed_dates.Nodup
          ∧ List.Sorted (· ≤ ·) (h.unmark_completed d).completed_dates
          ∧ (h.unmark_completed d).completed_dates.Nodup)
    ∧ (∀ (h : Habit) (d : Int), h.is_completed d → h.mark_completed d = h)
    ∧ (∀ (h : Habit) (d : Int), ¬ h.is_completed d = true → h.unmark_completed d = h) := by
  refine ⟨fun _ _ _ => rfl, ?_, ?_, ?_⟩
  · intro h d hs hn
    refine ⟨?_, ?_, ?_, ?_⟩
    · unfold Habit.mark_completed
      by_cases hc : h.completed_dates.contains d
      · rw [if_pos hc]; exact hs
      · rw [if_neg hc]
        exact List.sorted_insertionSort (· ≤ ·) _
    · unfold Habit.mark_completed
      by_cases hc : h.completed_dates.contains d
      · rw [if_pos hc]; exact hn
      · rw [if_neg hc]
        have hperm := List.perm_insertionSort (· ≤ ·) (h.completed_dates ++ [d])
        refine hperm.nodup_iff.mpr ?_
        have hd : d ∉ h.completed_dates := by
          intro hmem
          exact hc (by simpa using hmem)
        simp [List.nodup_append, hn, hd]
    · exact List.Pairwise.filter _ hs
    · exact hn.filter _
  · intro h d hc
    have hc' : h.completed_dates.contains d = true := hc
    unfold Habit.mark_completed
    rw [if_pos hc']
  · intro h d hc
    have hall : ∀ x ∈ h.completed_dates, (decide (x ≠ d)) = true := by
      intro x hx
      simp only [decide_eq_true_eq]
      intro he
      exact hc (by simpa [Habit.is_completed] using he ▸ hx)
    unfold Habit.unmark_completed
    rw [List.filter_eq_self.mpr hall]

theorem c9_completed_dates_invariant_witness :
    (List.Sorted (· ≤ ·) exDailyHabit.completed_dates ∧ exDailyHabit.completed_dates.Nodup
      ∧ List.Sorted (· ≤ ·) (exDailyHabit.mark_completed 0).completed_dates)
    ∧ (exDailyHabit.is_completed (daysFromCivil 2024 1 3)
        ∧ exDailyHabit.mark_completed (daysFromCivil 2024 1 3) = exDailyHabit) :=
  ⟨⟨by decide, by decide,
      (c9_completed_dates_invariant.2.1 exDailyHabit 0 (by decide) (by decide)).1⟩,
    ⟨by decide,
      c9_completed_dates_invariant.2.2.1 exDailyHabit (daysFromCivil 2024 1 3)
        (by decide)⟩⟩

/-! ### Todo entity (`src/todo.rs`), list projection and navigation
state machine (`src/ui.rs`), Enter / delete handlers (`src/main.rs`) -/

structure Todo where
  description : String
  completed : Bool
deriving DecidableEq, Repr

def Todo.new (description : String) : Todo :=
  { description := description, completed := false }

def Todo.toggle_completion (t : Todo) : Todo :=
  { t with completed := !t.completed }

inductive ListEntry where
  | Category (name : String)
  | Habit (h : HabitTracker.Habit)
  | Todo (t : HabitTracker.Todo)
deriving DecidableEq, Repr

/-- The tab filter of `update_list_items`: tab 0/1/2 keep one frequency,
tab 3 keeps everything, any other tab (in particular the Todo tab 4)
keeps nothing. -/
def tabKeeps (tab : Nat) (h : Habit) : Bool :=
  match tab with
  | 0 => decide (h.frequency = .Daily)
  | 1 => decide (h.frequency = .Weekly)
  | 2 => decide (h.frequency = .Monthly)
  | 3 => true
  | _ => false

/-- One `grouped_habits.entry(&habit.category).or_insert_with(Vec::new)
.push(habit)` step: a `BTreeMap<&str, Vec<&Habit>>` is an association
list sorted strictly by key, and `push` appends at the end of the
group. -/
def insertGrouped (g : List (String × List Habit)) (h : Habit) :
    List (String × List Habit) :=
  match g with
  | [] => [(h.category, [h])]
  | (k, v) :: rest =>
    if h.category = k then (k, v ++ [h]) :: rest
    else if h.category < k then (h.category, [h]) :: (k, v) :: rest
    else (k, v) :: insertGrouped rest h

def groupByCategory (hs : List Habit) : List (String × List Habit) :=
  hs.foldl insertGrouped []

/-- `AppState::update_list_items` as a function from the collections
and the active tab to the projected entry list. -/
def updateListItems (habits : List Habit) (todos : List Todo) (tab : Nat) :
    List ListEntry :=
  let filtered := habits.filter (tabKeeps tab)
  let grouped := groupByCategory filtered
  (grouped.map (fun g => ListEntry.Category g.1 :: g.2.map ListEntry.Habit)).flatten
    ++ (if tab = 4 then ListEntry.Category "To-Do List" :: todos.map ListEntry.Todo
        else [])

structure AppState where
  selected : Option Nat
  current_tab : Nat
  total_items : Nat
  list_items : List ListEntry
deriving DecidableEq, Repr

def AppState.update_list_items (s : AppState) (habits : List Habit)
    (todos : List Todo) : AppState :=
  let l := updateListItems habits todos s.current_tab
  { s with list_items := l, total_items := l.length }

/-- `AppState::next`; `none` models the `(i + 1) % 0` division-by-zero
panic of the source when an index is selected while `total_items = 0`. -/
def AppState.next (s : AppState) : Option AppState :=
  match s.selected with
  | some i =>
    if s.total_items = 0 then none
    else some { s with selected := some ((i + 1) % s.total_items) }
  | none => some { s with selected := some 0 }

/-- `AppState::previous`; `none` models the `usize` underflow of
`self.total_items - 1` when `total_items = 0`. -/
def AppState.previous (s : AppState) : Option AppState :=
  match s.selected with
  | some i =>
    if 0 < i then some { s with selected := some (i - 1) }
    else if s.total_items = 0 then none
    else some { s with selected := some (s.total_items - 1) }
  | none => some { s with selected := some 0 }

def toggleHabit (h : Habit) (date : Int) : Habit :=
  if h.is_completed date then h.unmark_completed date else h.mark_completed date

/-- `habits.iter_mut().find(|h| h.name == .. && h.category == ..)`
followed by the toggle: only the first match is toggled. -/
def toggleFirstHabit (date : Int) (sel : Habit) : List Habit → List Habit
  | [] => []
  | h :: t =>
    if h.name = sel.name ∧ h.category = sel.category then toggleHabit h date :: t
    else h :: toggleFirstHabit date sel t

def toggleFirstTodo (sel : Todo) : List Todo → List Todo
  | [] => []
  | t :: ts =>
    if t.description = sel.description then t.toggle_completion :: ts
    else t :: toggleFirstTodo sel ts

/-- The `KeyCode::Enter` handler of `run_app`; `none` models the panic
of `app_state.list_items[index]` on an out-of-range selection. -/
def enterAction (currentDate : Int) (habits : List Habit) (todos : List Todo)
    (s : AppState) : Option (List Habit × List Todo × AppState) :=
  match s.selected with
  | none => some (habits, todos, s)
  | some index =>
    match s.list_items.get? index with
    | none => none
    | some (ListEntry.Category category) =>
      let all_completed :=
        (habits.filter (fun h => decide (h.category = category))).all
          (fun h => h.is_completed currentDate)
      let habits' := habits.map (fun h =>
        if h.category = category then
          (if all_completed then h.unmark_completed currentDate
           else h.mark_completed currentDate)
        else h)
      some (habits', todos, s.update_list_items habits' todos)
    | some (ListEntry.Habit selected_habit) =>
      let habits' := toggleFirstHabit currentDate selected_habit habits
      some (habits', todos, s.update_list_items habits' todos)
    | some (ListEntry.Todo selected_todo) =>
      let todos' := toggleFirstTodo selected_todo todos
      some (habits, todos', s.update_list_items habits todos')

/-- The selection clamp at the end of the 'd' handler:
`if !app_state.list_items.is_empty() { Some(index.min(total_items - 1)) }
else { None }`. -/
def clampSel (s1 : AppState) (index : Nat) : AppState :=
  if s1.list_items.isEmpty then { s1 with selected := none }
  else { s1 with selected := some (min index (s1.total_items - 1)) }

/-- The `KeyCode::Char('d')` handler of `run_app`: retain-based removal,
projection rebuild, then clamp of the selection. -/
def deleteAction (habits : List Habit) (todos : List Todo) (s : AppState) :
    Option (List Habit × List Todo × AppState) :=
  match s.selected with
  | none => some (habits, todos, s)
  | some index =>
    match s.list_items.get? index with
    | none => none
    | some entry =>
      let habits' := match entry with
        | ListEntry.Category category =>
            habits.filter (fun h => decide (h.category ≠ category))
        | ListEntry.Habit sel =>
            habits.filter (fun h =>
              decide (h.name ≠ sel.name ∨ h.category ≠ sel.category))
        | ListEntry.Todo _ => habits
      let todos' := match entry with
        | ListEntry.Todo sel =>
            todos.filter (fun t => decide (t.description ≠ sel.description))
        | _ => todos
      some (habits', todos', clampSel (s.update_list_items habits' todos') index)

/-! ### Claims C5, C8, C10 -/

/-- C10: on the Todo tab (tab 4) every rebuild of the projection emits
the synthetic "To-Do List" category entry unconditionally, so the
projection is never empty — even with both collections empty. -/
theorem c10_todo_tab_projection_nonempty :
    ∀ (habits : List Habit) (todos : List Todo),
      ListEntry.Category "To-Do List" ∈ updateListItems habits todos 4
      ∧ 1 ≤ (updateListItems habits todos 4).length := by
  intro habits todos
  unfold updateListItems
  constructor
  · simp
  · rw [List.length_append]
    have h1 : (if (4 : Nat) = 4 then
        ListEntry.Category "To-Do List" :: todos.map ListEntry.Todo
        else []).length = 1 + todos.length := by
      simp
      omega
    omega

/-- The state of `run_app` right after startup with empty persisted
collections: `AppState::default()` followed by the initial
`update_list_items`. -/
def startState : AppState :=
  (AppState.mk none 0 0 []).update_list_items [] []

/-- C5 counterexample: from the reachable start state (empty
collections, `selected = None`, `total_items = 0`), `next()` is not a
no-op — it sets `selected = Some(0)`, an out-of-range selection on an
empty projection (from which a further `next()` divides by zero). -/
theorem c5_counterexample_next_changes_state :
    startState.selected = none
    ∧ startState.total_items = 0
    ∧ AppState.next startState = some { startState with selected := some 0 }
    ∧ { startState with selected := some 0 } ≠ startState := by
  decide

/-- C5 (amended): with `selected = None`, the Enter and delete handlers
are no-ops that never fail, but `next()` and `previous()` select index 0
even when `total_items = 0`; with an in-range selection
(`i < total_items`) both stay in range without underflow or division by
zero; with a selection present while `total_items = 0`, `next()`
divides by zero and `previous()` (from index 0) underflows. -/
theorem c5_navigation_and_handler_guards :
    ∀ (date : Int) (habits : List Habit) (todos : List Todo) (s : AppState),
      (s.selected = none →
        enterAction date habits todos s = some (habits, todos, s)
        ∧ deleteAction habits todos s = some (habits, todos, s)
        ∧ AppState.next s = some { s with selected := some 0 }
        ∧ AppState.previous s = some { s with selected := some 0 })
      ∧ (∀ i, s.selected = some i → i < s.total_items →
          (AppState.next s = some { s with selected := some ((i + 1) % s.total_items) }
            ∧ (i + 1) % s.total_items < s.total_items)
          ∧ ∃ j, AppState.previous s = some { s with selected := some j }
              ∧ j < s.total_items)
      ∧ (∀ i, s.selected = some i → s.total_items = 0 →
          AppState.next s = none ∧ (i = 0 → AppState.previous s = none)) := by
  intro date habits todos s
  refine ⟨?_, ?_, ?_⟩
  · intro hsel
    refine ⟨?_, ?_, ?_, ?_⟩
    · simp only [enterAction, hsel]
    · simp only [deleteAction, hsel]
    · simp only [AppState.next, hsel]
    · simp only [AppState.previous, hsel]
  · intro i hsel hi
    have htot : 0 < s.total_items := by omega
    refine ⟨⟨?_, ?_⟩, ?_⟩
    · simp only [AppState.next, hsel]
      rw [if_neg (by omega)]
    · exact Nat.mod_lt _ htot
    · simp only [AppState.previous, hsel]
      by_cases hzero : 0 < i
      · rw [if_pos hzero]
        exact ⟨i - 1, rfl, by omega⟩
      · rw [if_neg hzero, if_neg (by omega)]
        exact ⟨s.total_items - 1, rfl, by omega⟩
  · intro i hsel htot
    constructor
    · simp only [AppState.next, hsel]
      rw [if_pos htot]
    · intro hi
      simp only [AppState.previous, hsel]
      rw [if_neg (by omega), if_pos htot]

theorem c5_navigation_and_handler_guards_witness :
    startState.selected = none
    ∧ enterAction 0 [] [] startState = some ([], [], startState) :=
  ⟨by decide,
    ((c5_navigation_and_handler_guards 0 [] [] startState).1 (by decide)).1⟩

/-- The reachable Todo-tab state showing one remaining to-do item. -/
def todoTabState : AppState :=
  { selected := some 1, current_tab := 4, total_items := 2,
    list_items := updateListItems [] [Todo.new "buy milk"] 4 }

/-- C8 counterexample: on the Todo tab, deleting the last remaining
to-do does not give `selected = None` and `total_items = 0`: the
synthetic "To-Do List" category entry is re-emitted by the rebuild, so
`total_items = 1` and `selected = Some(0)`. -/
theorem c8_counterexample_delete_last_todo :
    deleteAction [] [Todo.new "buy milk"] todoTabState =
      some ([], [],
        { selected := some 0, current_tab := 4, total_items := 1,
          list_items := [ListEntry.Category "To-Do List"] })
    ∧ ¬ ((1 : Nat) = 0 ∧ (some 0 : Option Nat) = none) := by
  decide

theorem clampSel_spec (s : AppState) (habits' : List Habit)
    (todos' : List Todo) (i : Nat) :
    (clampSel (s.update_list_items habits' todos') i).list_items
        = updateListItems habits' todos' s.current_tab
    ∧ (clampSel (s.update_list_items habits' todos') i).total_items
        = (clampSel (s.update_list_items habits' todos') i).list_items.length
    ∧ ((clampSel (s.update_list_items habits' todos') i).list_items = [] →
        (clampSel (s.update_list_items habits' todos') i).selected = none)
    ∧ ((clampSel (s.update_list_items habits' todos') i).list_items ≠ [] →
        (clampSel (s.update_list_items habits' todos') i).selected
            = some (min i ((clampSel (s.update_list_items habits' todos') i).total_items - 1))
        ∧ min i ((clampSel (s.update_list_items habits' todos') i).total_items - 1)
            < (clampSel (s.update_list_items habits' todos') i).total_items) := by
  by_cases hemp : (s.update_list_items habits' todos').list_items.isEmpty
  · unfold clampSel
    rw [if_pos hemp]
    refine ⟨rfl, rfl, fun _ => rfl, fun hne => absurd ?_ hne⟩
    exact List.isEmpty_iff.mp hemp
  · unfold clampSel
    rw [if_neg hemp]
    have hne : (updateListItems habits' todos' s.current_tab).length ≠ 0 := by
      intro h0
      exact hemp (by
        simp only [AppState.update_list_items, List.isEmpty_iff]
        exact List.length_eq_zero.mp h0)
    refine ⟨rfl, rfl, fun hempty => ?_, fun _ => ⟨rfl, ?_⟩⟩
    · exact absurd (List.isEmpty_iff.mpr hempty) hemp
    · show min i ((updateListItems habits' todos' s.current_tab).length - 1)
        < (updateListItems habits' todos' s.current_tab).length
      omega

/-- C8 (amended): with an in-range selection, the delete handler removes
the matching habit(s) / category / to-do, rebuilds the projection, and
clamps `selected` to `min(i, total_items − 1)` (in range) when the new
projection is non-empty and to `None` when it is empty; deleting the
last remaining item yields `selected = None` and `total_items = 0` on
the habit tabs, while on the Todo tab the synthetic category entry keeps
the projection non-empty (see the counterexample). -/
theorem c8_delete_clamps_selection :
    (∀ (habits : List Habit) (todos : List Todo) (s : AppState) (i : Nat),
      s.selected = some i → i < s.list_items.length →
      ∃ habits' todos' s', deleteAction habits todos s = some (habits', todos', s')
        ∧ s'.list_items = updateListItems habits' todos' s.current_tab
        ∧ s'.total_items = s'.list_items.length
        ∧ (s'.list_items = [] → s'.selected = none)
        ∧ (s'.list_items ≠ [] →
            s'.selected = some (min i (s'.total_items - 1))
            ∧ min i (s'.total_items - 1) < s'.total_items))
    ∧ deleteAction [Habit.new "read" "books" .Daily] []
        { selected := some 1, current_tab := 0, total_items := 2,
          list_items := updateListItems [Habit.new "read" "books" .Daily] [] 0 } =
      some ([], [],
        { selected := none, current_tab := 0, total_items := 0, list_items := [] }) := by
  constructor
  · intro habits todos s i hsel hlen
    have he : s.list_items.get? i = some (s.list_items.get ⟨i, hlen⟩) :=
      List.get?_eq_get hlen
    simp only [deleteAction, hsel, he]
    exact ⟨_, _, _, rfl, clampSel_spec s _ _ i⟩
  · decide

theorem c8_delete_clamps_selection_witness :
    todoTabState.selected = some 1
    ∧ (1 : Nat) < todoTabState.list_items.length
    ∧ ∃ habits' todos' s',
        deleteAction [] [Todo.new "buy milk"] todoTabState = some (habits', todos', s')
        ∧ s'.list_items = updateListItems habits' todos' todoTabState.current_tab
        ∧ s'.total_items = s'.list_items.length
        ∧ (s'.list_items = [] → s'.selected = none)
        ∧ (s'.list_items ≠ [] →
            s'.selected = some (min 1 (s'.total_items - 1))
            ∧ min 1 (s'.total_items - 1) < s'.total_items) :=
  ⟨by decide, by decide,
    c8_delete_clamps_selection.1 [] [Todo.new "buy milk"] todoTabState 1
      (by decide) (by decide)⟩

/-! ### Claim C6: the projection groups by category in sorted order -/

/-- The group a category contributes: its name paired with the habits
of that category in source order. -/
def groupOf (pre : List Habit) (c : String) : String × List Habit :=
  (c, pre.filter (fun x => decide (x.category = c)))

/-- Insertion into a strictly sorted, duplicate-free key list —
the key set of the `BTreeMap`. -/
def insertSortedDedup (c : String) : List String → List String
  | [] => [c]
  | x :: t =>
    if c = x then x :: t
    else if c < x then c :: x :: t
    else x :: insertSortedDedup c t

def canonKeys (hs : List Habit) : List String :=
  hs.foldl (fun acc h => insertSortedDedup h.category acc) []

theorem insertGrouped_cons (k : String) (v : List Habit)
    (rest : List (String × List Habit)) (h : Habit) :
    insertGrouped ((k, v) :: rest) h =
      if h.category = k then (k, v ++ [h]) :: rest
      else if h.category < k then (h.category, [h]) :: (k, v) :: rest
      else (k, v) :: insertGrouped rest h := rfl

theorem mem_insertSortedDedup {c y : String} :
    ∀ {K : List String}, y ∈ insertSortedDedup c K ↔ y = c ∨ y ∈ K := by
  intro K
  induction K with
  | nil => simp [insertSortedDedup]
  | cons x t ih =>
    simp only [insertSortedDedup]
    by_cases h1 : c = x
    · rw [if_pos h1]
      subst h1
      simp only [List.mem_cons]
      tauto
    · rw [if_neg h1]
      by_cases h2 : c < x
      · rw [if_pos h2]
        simp only [List.mem_cons]
      · rw [if_neg h2]
        simp only [List.mem_cons, ih]
        tauto

theorem sorted_insertSortedDedup {c : String} :
    ∀ {K : List String}, List.Sorted (· < ·) K →
      List.Sorted (· < ·) (insertSortedDedup c K) := by
  intro K
  induction K with
  | nil => intro _; simp [insertSortedDedup]
  | cons x t ih =>
    intro hs
    rw [List.sorted_cons] at hs
    obtain ⟨hx, ht⟩ := hs
    simp only [insertSortedDedup]
    by_cases h1 : c = x
    · rw [if_pos h1, List.sorted_cons]
      exact ⟨hx, ht⟩
    · rw [if_neg h1]
      by_cases h2 : c < x
      · rw [if_pos h2, List.sorted_cons]
        refine ⟨?_, List.sorted_cons.mpr ⟨hx, ht⟩⟩
        intro b hb
        rcases List.mem_cons.mp hb with rfl | hbt
        · exact h2
        · exact lt_trans h2 (hx b hbt)
      · have hxc : x < c := lt_of_le_of_ne (not_lt.mp h2) (fun e => h1 e.symm)
        rw [if_neg h2, List.sorted_cons]
        refine ⟨?_, ih ht⟩
        intro b hb
        rcases mem_insertSortedDedup.mp hb with rfl | hbt
        · exact hxc
        · exact hx b hbt

theorem groupOf_append_ne {pre : List Habit} {h : Habit} {c : String}
    (hne : ¬ h.category = c) : groupOf (pre ++ [h]) c = groupOf pre c := by
  unfold groupOf
  rw [List.filter_append]
  simp [hne]

theorem groupOf_append_eq {pre : List Habit} {h : Habit} :
    groupOf (pre ++ [h]) h.category
      = (h.category, (groupOf pre h.category).2 ++ [h]) := by
  unfold groupOf
  rw [List.filter_append]
  simp

/-- One `BTreeMap` insertion step, in canonical form: inserting habit
`h` when the accumulated map holds exactly the groups of `pre` (keys
`K`, strictly sorted) yields exactly the groups of `pre ++ [h]` with
key set `insertSortedDedup h.category K`. -/
theorem insertGrouped_canonical (h : Habit) :
    ∀ (K : List String) (pre : List Habit),
      List.Sorted (· < ·) K →
      (h.category ∉ K →
        pre.filter (fun x => decide (x.category = h.category)) = []) →
      insertGrouped (K.map (groupOf pre)) h
        = (insertSortedDedup h.category K).map (groupOf (pre ++ [h])) := by
  intro K
  induction K with
  | nil =>
    intro pre _ hcomp
    have hf := hcomp (by simp)
    show insertGrouped [] h = [h.category].map (groupOf (pre ++ [h]))
    simp only [insertGrouped, List.map_cons, List.map_nil]
    rw [groupOf_append_eq]
    have h2 : (groupOf pre h.category).2 = [] := hf
    rw [h2]
    rfl
  | cons x t ih =>
    intro pre hs hcomp
    rw [List.sorted_cons] at hs
    obtain ⟨hx, ht⟩ := hs
    have hhead : groupOf pre x = (x, pre.filter (fun a => decide (a.category = x))) := rfl
    simp only [List.map_cons]
    rw [hhead, insertGrouped_cons]
    simp only [insertSortedDedup]
    by_cases h1 : h.category = x
    · rw [if_pos h1, if_pos h1]
      subst h1
      simp only [List.map_cons]
      rw [groupOf_append_eq]
      have htail : t.map (groupOf (pre ++ [h])) = t.map (groupOf pre) :=
        List.map_congr_left (fun c hc =>
          groupOf_append_ne (ne_of_lt (hx c hc)))
      rw [htail]
      rfl
    · rw [if_neg h1, if_neg h1]
      by_cases h2 : h.category < x
      · rw [if_pos h2, if_pos h2]
        simp only [List.map_cons]
        have hnotmem : h.category ∉ (x :: t) := by
          intro hmem
          rcases List.mem_cons.mp hmem with he | hmt
          · exact h1 he
          · exact absurd h2 (not_lt.mpr (le_of_lt (hx _ hmt)))
        have hf := hcomp hnotmem
        rw [groupOf_append_eq]
        have hz : (groupOf pre h.category).2 = [] := hf
        rw [hz]
        rw [groupOf_append_ne h1, hhead]
        have htail : t.map (groupOf (pre ++ [h])) = t.map (groupOf pre) :=
          List.map_congr_left (fun c hc =>
            groupOf_append_ne (ne_of_lt (lt_trans h2 (hx c hc))))
        rw [htail]
        rfl
      · rw [if_neg h2, if_neg h2]
        simp only [List.map_cons]
        rw [groupOf_append_ne h1, hhead]
        have hsub := ih pre ht (fun hnt => hcomp (by
          intro hmem
          rcases List.mem_cons.mp hmem with he | hmt
          · exact h1 he
          · exact hnt hmt))
        rw [hsub]

/-- The `BTreeMap` grouping loop in canonical form: keys are the
strictly sorted deduplicated categories, each key holding the source
habits of that category in order. -/
theorem groupByCategory_canonical :
    ∀ hs : List Habit,
      groupByCategory hs = (canonKeys hs).map (groupOf hs)
      ∧ List.Sorted (· < ·) (canonKeys hs)
      ∧ (∀ c, c ∈ canonKeys hs ↔ c ∈ hs.map Habit.category) := by
  intro hs
  induction hs using List.reverseRecOn with
  | nil => exact ⟨rfl, List.sorted_nil, by simp [canonKeys, groupByCategory]⟩
  | append_singleton ds h ih =>
    obtain ⟨heq, hsort, hmem⟩ := ih
    have hg : groupByCategory (ds ++ [h]) = insertGrouped (groupByCategory ds) h := by
      unfold groupByCategory
      rw [List.foldl_append]
      rfl
    have hk : canonKeys (ds ++ [h]) = insertSortedDedup h.category (canonKeys ds) := by
      unfold canonKeys
      rw [List.foldl_append]
      rfl
    have hcomp : h.category ∉ canonKeys ds →
        ds.filter (fun x => decide (x.category = h.category)) = [] := by
      intro hnot
      rw [List.filter_eq_nil_iff]
      intro a ha
      simp only [decide_eq_true_eq]
      intro hac
      refine hnot ((hmem h.category).mpr ?_)
      rw [← hac]
      exact List.mem_map_of_mem Habit.category ha
    refine ⟨?_, ?_, ?_⟩
    · rw [hg, heq, hk]
      exact insertGrouped_canonical h (canonKeys ds) ds hsort hcomp
    · rw [hk]
      exact sorted_insertSortedDedup hsort
    · intro c
      rw [hk, mem_insertSortedDedup, List.map_append, List.mem_append]
      simp only [List.map_cons, List.map_nil, List.mem_singleton]
      rw [hmem c]
      tauto

/-- Strictly sorted string lists with the same members are equal. -/
theorem sorted_keys_ext {K K' : List String}
    (h1 : List.Sorted (· < ·) K) (h2 : List.Sorted (· < ·) K')
    (hmem : ∀ c, c ∈ K ↔ c ∈ K') : K = K' := by
  haveI : IsAntisymm String (· < ·) :=
    ⟨fun a b hab hba => absurd hba (lt_asymm hab)⟩
  have hn1 : K.Nodup := h1.imp (fun hab => ne_of_lt hab)
  have hn2 : K'.Nodup := h2.imp (fun hab => ne_of_lt hab)
  have hp : K.Perm K' := (List.perm_ext_iff_of_nodup hn1 hn2).mpr hmem
  exact List.eq_of_perm_of_sorted hp h1 h2

/-- C6: the rebuilt projection is the tab-filtered habits grouped by
category, group keys in strictly ascending order and independent of the
insertion order of the habit collection, each group's members being
exactly the filtered habits of that category in stable source order;
Todo-tab runs append the synthetic category followed by the to-dos in
source order. -/
theorem c6_projection_grouping :
    ∀ (habits habits2 : List Habit) (todos : List Todo) (tab : Nat),
      habits.Perm habits2 →
      List.Sorted (· < ·)
        ((groupByCategory (habits.filter (tabKeeps tab))).map Prod.fst)
      ∧ (∀ p ∈ groupByCategory (habits.filter (tabKeeps tab)),
          p.2 = (habits.filter (tabKeeps tab)).filter
              (fun x => decide (x.category = p.1))
          ∧ p.2 ≠ [])
      ∧ (∀ c, c ∈ (groupByCategory (habits.filter (tabKeeps tab))).map Prod.fst
          ↔ c ∈ (habits.filter (tabKeeps tab)).map Habit.category)
      ∧ (groupByCategory (habits2.filter (tabKeeps tab))).map Prod.fst
          = (groupByCategory (habits.filter (tabKeeps tab))).map Prod.fst
      ∧ updateListItems habits todos tab
          = ((groupByCategory (habits.filter (tabKeeps tab))).map
              (fun g => ListEntry.Category g.1 :: g.2.map ListEntry.Habit)).flatten
            ++ (if tab = 4 then
                  ListEntry.Category "To-Do List" :: todos.map ListEntry.Todo
                else []) := by
  intro habits habits2 todos tab hperm
  obtain ⟨heq, hsort, hmem⟩ := groupByCategory_canonical (habits.filter (tabKeeps tab))
  obtain ⟨heq2, hsort2, hmem2⟩ := groupByCategory_canonical (habits2.filter (tabKeeps tab))
  have hfst : (Prod.fst ∘ groupOf (habits.filter (tabKeeps tab))) = id := rfl
  have hkeys : (groupByCategory (habits.filter (tabKeeps tab))).map Prod.fst
      = canonKeys (habits.filter (tabKeeps tab)) := by
    rw [heq, List.map_map, hfst, List.map_id]
  have hfst2 : (Prod.fst ∘ groupOf (habits2.filter (tabKeeps tab))) = id := rfl
  have hkeys2 : (groupByCategory (habits2.filter (tabKeeps tab))).map Prod.fst
      = canonKeys (habits2.filter (tabKeeps tab)) := by
    rw [heq2, List.map_map, hfst2, List.map_id]
  refine ⟨?_, ?_, ?_, ?_, rfl⟩
  · rw [hkeys]
    exact hsort
  · intro p hp
    rw [heq] at hp
    obtain ⟨c, hc, hpc⟩ := List.mem_map.mp hp
    subst hpc
    refine ⟨rfl, ?_⟩
    obtain ⟨x, hx, hxc⟩ := List.mem_map.mp ((hmem c).mp hc)
    intro he
    have hmemf : x ∈ (habits.filter (tabKeeps tab)).filter
        (fun y => decide (y.category = c)) :=
      List.mem_filter.mpr ⟨hx, by simp [hxc]⟩
    rw [show (groupOf (habits.filter (tabKeeps tab)) c).2
        = (habits.filter (tabKeeps tab)).filter
            (fun y => decide (y.category = c)) from rfl] at he
    rw [he] at hmemf
    cases hmemf
  · intro c
    rw [hkeys]
    exact hmem c
  · rw [hkeys, hkeys2]
    have hpf : (habits.filter (tabKeeps tab)).Perm (habits2.filter (tabKeeps tab)) :=
      hperm.filter (tabKeeps tab)
    refine sorted_keys_ext hsort2 hsort ?_
    intro c
    rw [hmem c, hmem2 c]
    constructor
    · intro hc
      exact (hpf.map Habit.category).mem_iff.mpr hc
    · intro hc
      exact (hpf.map Habit.category).mem_iff.mp hc

theorem c6_projection_grouping_witness :
    (groupByCategory ([Habit.new "b" "art" .Daily,
        Habit.new "a" "zoo" .Daily].filter (tabKeeps 3))).map Prod.fst
      = (groupByCategory ([Habit.new "a" "zoo" .Daily,
          Habit.new "b" "art" .Daily].filter (tabKeeps 3))).map Prod.fst :=
  (c6_projection_grouping
    [Habit.new "a" "zoo" .Daily, Habit.new "b" "art" .Daily]
    [Habit.new "b" "art" .Daily, Habit.new "a" "zoo" .Daily]
    [] 3 (by decide)).2.2.2.1

end HabitTracker
